import Mathlib

/-!
A shallow embedding of the linenoise line-editing library (linenoise.c /
linenoise.h of Justasic/linenoise) and proofs about it.

Modelling conventions:
- Machine bytes are `Nat`; the edit buffer `buf` is the whole malloc'd byte
  array (length `buflen + 1`, since `LinenoiseCreate` allocates
  `LINENOISE_MAX_LINE` bytes and then decrements `buflen` to reserve the
  terminator slot).
- C strings (history entries, lines passed to the history API) are byte
  lists that contain no 0 byte; `cstr` reads a C string out of a buffer
  (the bytes before the first 0).
- File descriptors, the prompt bytes themselves (only `plen` matters),
  `termios` contents and the append-buffer output are not represented:
  no claim depends on them.  Functions whose only effect is terminal
  output (`RefreshLine`, `LinenoiseClearScreen`, beeps) are modelled as
  the identity on the session state.
- Fallible OS calls (`isatty`, `tcgetattr`, `tcsetattr`, terminal writes)
  are modelled by `Bool` parameters giving the call's outcome.
-/

namespace Linenoise

/-- `LINENOISE_MAX_LINE` from linenoise.c. -/
def LINENOISE_MAX_LINE : Nat := 4096

/-- `LINENOISE_DEFAULT_HISTORY_MAX_LEN` from linenoise.c. -/
def LINENOISE_DEFAULT_HISTORY_MAX_LEN : Nat := 100

/-- The `LinenoiseState` structure of linenoise.h, restricted to the fields
the verified claims touch.  `buf` is the whole allocated byte array;
`history_len` of the C struct is `history.length` here (the C array never
holds live entries beyond `history_len`, so a list is a faithful model);
`history_index` is a C `int`, hence `Int`. -/
structure LinenoiseState where
  buf : List Nat
  buflen : Nat
  plen : Nat
  pos : Nat
  oldpos : Nat
  len : Nat
  cols : Nat
  maxrows : Nat
  history_index : Int
  rawmode : Bool
  mlmode : Bool
  history_max_len : Nat
  history : List (List Nat)
  deriving Repr, DecidableEq

/-- The C string stored in a byte buffer: the bytes strictly before the
first 0 byte (`strlen` / `strdup` semantics). -/
def cstr (l : List Nat) : List Nat := l.takeWhile (fun b => b != 0)

/-- `strlen` on a byte buffer. -/
def strlenBuf (l : List Nat) : Nat := (cstr l).length

/-- `memmove(dst, src, n)` inside one buffer `l` (byte offsets): the
destination range `[dst, dst+n)` receives the bytes originally at
`[src, src+n)`; memmove reads the source before overwriting, which the
functional form models by reading only from the original `l`. -/
def memmoveList (l : List Nat) (dst src n : Nat) : List Nat :=
  l.take dst ++ (l.drop src).take n ++ l.drop (dst + n)

/-- `strncpy(dst, src, n)` where `src` is a stored C string (nul-free byte
list): copies `src` up to `n` bytes, padding with 0 bytes up to `n` when
`src` is shorter; bytes of `dst` from offset `n` on are untouched. -/
def strncpyBuf (dst src : List Nat) (n : Nat) : List Nat :=
  ((cstr src).take n ++ List.replicate (n - (cstr src).length) 0) ++ dst.drop n

/-- `EnableRawMode` (linenoise.c:204).  `isattyOk`, `tcgetOk`, `tcsetOk`
give the outcomes of `isatty`, `tcgetattr` and `tcsetattr`.  Note the
source sets `ls->rawmode = false` on the success path (line 234). -/
def EnableRawMode (s : LinenoiseState) (isattyOk tcgetOk tcsetOk : Bool) :
    Int × LinenoiseState :=
  if !isattyOk then (-1, s)
  else if !tcgetOk then (-1, s)
  else if !tcsetOk then (-1, s)
  else (0, { s with rawmode := false })

/-- `DisableRawMode` (linenoise.c:242): restores the saved termios only if
`rawmode` is set, and clears the flag only when `tcsetattr` succeeded. -/
def DisableRawMode (s : LinenoiseState) (tcsetOk : Bool) : LinenoiseState :=
  if s.rawmode && tcsetOk then { s with rawmode := false } else s

/-- `LinenoiseHistoryAdd` (linenoise.c:1287).  The first-call array
allocation is invisible in the list model (a session that never freed its
history always has the array once an entry exists); returns the C result
(1 added, 0 rejected). -/
def LinenoiseHistoryAdd (s : LinenoiseState) (line : List Nat) :
    Nat × LinenoiseState :=
  if s.history_max_len = 0 then (0, s)
  else if s.history.length ≠ 0 ∧ s.history.getLast? = some line then (0, s)
  else
    let s :=
      if s.history.length = s.history_max_len then
        { s with history := s.history.drop 1 }
      else s
    (1, { s with history := s.history ++ [line] })

/-- `LinenoiseHistorySetMaxLen` (linenoise.c:1328).  `len` is a C `int`;
values below 1 are rejected.  The final clamp of `history_len` is kept
although it is dead after the trim. -/
def LinenoiseHistorySetMaxLen (s : LinenoiseState) (n : Int) :
    Nat × LinenoiseState :=
  if n < 1 then (0, s)
  else
    let m := n.toNat
    let tocopy := min s.history.length m
    let hist := s.history.drop (s.history.length - tocopy)
    let hist := if hist.length > m then hist.take m else hist
    (1, { s with history := hist, history_max_len := m })

/-- `LinenoiseCreate` (linenoise.c:1153) restricted to the modelled fields.
`plen`/`cols` are the prompt length and the `GetColumns` answer (inputs of
the environment).  The buffer is `LINENOISE_MAX_LINE` zero bytes and then
`buflen--` reserves the terminator; finally the scratch history entry `""`
is appended via `LinenoiseHistoryAdd`. -/
def LinenoiseCreate (plen cols : Nat) : LinenoiseState :=
  let s : LinenoiseState :=
    { buf := List.replicate LINENOISE_MAX_LINE 0
      buflen := LINENOISE_MAX_LINE - 1
      plen := plen
      pos := 0
      oldpos := 0
      len := 0
      cols := cols
      maxrows := 0
      history_index := 0
      rawmode := false
      mlmode := false
      history_max_len := LINENOISE_DEFAULT_HISTORY_MAX_LEN
      history := [] }
  (LinenoiseHistoryAdd s []).2

/-- `LinenoiseEditInsert` (linenoise.c:687).  `hcb` tells whether a hints
callback is registered (`l_HintsCallback != NULL`), `writeOk` the outcome
of the one-byte fast-path `write`.  Returns the C result (`-1` only on a
fast-path write error) together with the updated state; `RefreshLine`
swallows write errors and does not change the modelled state. -/
def LinenoiseEditInsert (hcb writeOk : Bool) (s : LinenoiseState) (c : Nat) :
    Int × LinenoiseState :=
  if s.len < s.buflen then
    if s.len = s.pos then
      let s' := { s with buf := (s.buf.set s.pos c).set (s.len + 1) 0
                         pos := s.pos + 1
                         len := s.len + 1 }
      if !s'.mlmode ∧ s'.plen + s'.len < s'.cols ∧ !hcb then
        if writeOk then (0, s') else (-1, s')
      else (0, s')
    else
      (0, { s with buf := ((memmoveList s.buf (s.pos + 1) s.pos (s.len - s.pos)).set
                             s.pos c).set (s.len + 1) 0
                   pos := s.pos + 1
                   len := s.len + 1 })
  else (0, s)

/-- `LinenoiseEditMoveLeft` (linenoise.c:721). -/
def LinenoiseEditMoveLeft (s : LinenoiseState) : LinenoiseState :=
  if s.pos > 0 then { s with pos := s.pos - 1 } else s

/-- `LinenoiseEditMoveRight` (linenoise.c:731). -/
def LinenoiseEditMoveRight (s : LinenoiseState) : LinenoiseState :=
  if s.pos ≠ s.len then { s with pos := s.pos + 1 } else s

/-- `LinenoiseEditMoveHome` (linenoise.c:741). -/
def LinenoiseEditMoveHome (s : LinenoiseState) : LinenoiseState :=
  if s.pos ≠ 0 then { s with pos := 0 } else s

/-- `LinenoiseEditMoveEnd` (linenoise.c:751). -/
def LinenoiseEditMoveEnd (s : LinenoiseState) : LinenoiseState :=
  if s.pos ≠ s.len then { s with pos := s.len } else s

/-- `LinenoiseEditHistoryNext` (linenoise.c:764); `dir = true` is
`LINENOISE_HISTORY_PREV`.  The current buffer is written back into the
slot currently browsed, then `history_index` moves and is clamped, and on
an in-range move the indexed entry is `strncpy`ed into the buffer. -/
def LinenoiseEditHistoryNext (s : LinenoiseState) (dir : Bool) : LinenoiseState :=
  if s.history.length > 1 then
    let slot := ((s.history.length : Int) - 1 - s.history_index).toNat
    let hist := s.history.set slot (cstr s.buf)
    let hidx := s.history_index + (if dir then 1 else -1)
    if hidx < 0 then
      { s with history := hist, history_index := 0 }
    else if hidx ≥ (s.history.length : Int) then
      { s with history := hist, history_index := (s.history.length : Int) - 1 }
    else
      let e := hist.getD ((s.history.length : Int) - 1 - hidx).toNat []
      let buf' := (strncpyBuf s.buf e s.buflen).set (s.buflen - 1) 0
      { s with history := hist
               history_index := hidx
               buf := buf'
               len := strlenBuf buf'
               pos := strlenBuf buf' }
  else s

/-- `LinenoiseEditDelete` (linenoise.c:794). -/
def LinenoiseEditDelete (s : LinenoiseState) : LinenoiseState :=
  if s.len > 0 ∧ s.pos < s.len then
    { s with buf := (memmoveList s.buf s.pos (s.pos + 1) (s.len - s.pos - 1)).set
                      (s.len - 1) 0
             len := s.len - 1 }
  else s

/-- `LinenoiseEditBackspace` (linenoise.c:806). -/
def LinenoiseEditBackspace (s : LinenoiseState) : LinenoiseState :=
  if s.pos > 0 ∧ s.len > 0 then
    { s with buf := (memmoveList s.buf (s.pos - 1) s.pos (s.len - s.pos)).set
                      (s.len - 1) 0
             pos := s.pos - 1
             len := s.len - 1 }
  else s

/-- First retreat loop of `LinenoiseEditDeletePrevWord`:
`while (pos > 0 && buf[pos-1] == ' ') pos--`. -/
def skipSpaces (buf : List Nat) : Nat → Nat
  | 0 => 0
  | pos + 1 => if buf.getD pos 0 = 32 then skipSpaces buf pos else pos + 1

/-- Second retreat loop of `LinenoiseEditDeletePrevWord`:
`while (pos > 0 && buf[pos-1] != ' ') pos--`. -/
def skipWord (buf : List Nat) : Nat → Nat
  | 0 => 0
  | pos + 1 => if buf.getD pos 0 ≠ 32 then skipWord buf pos else pos + 1

/-- `LinenoiseEditDeletePrevWord` (linenoise.c:820).  The `memmove` copies
`len - old_pos + 1` bytes (terminator included) down to the retreated
position. -/
def LinenoiseEditDeletePrevWord (s : LinenoiseState) : LinenoiseState :=
  let oldPos := s.pos
  let p := skipWord s.buf (skipSpaces s.buf s.pos)
  let diff := oldPos - p
  { s with buf := memmoveList s.buf p oldPos (s.len - oldPos + 1)
           pos := p
           len := s.len - diff }

/-- `LinenoiseClearBuffer` (linenoise.c:837): `memset(buf, 0, buflen)` (the
final array byte beyond `buflen` is not touched) and `pos = 0`; `len` is
left as it was. -/
def LinenoiseClearBuffer (s : LinenoiseState) : LinenoiseState :=
  { s with buf := List.replicate s.buflen 0 ++ s.buf.drop s.buflen
           pos := 0 }

/-- The state effect of `Linenoise` (linenoise.c:1198) before it enters the
editing machinery: `ls->buf[0] = '\0'` and nothing else. -/
def LinenoiseEntry (s : LinenoiseState) : LinenoiseState :=
  { s with buf := s.buf.set 0 0 }

/-- One decoded keystroke as dispatched by the `switch` of `LinenoiseEdit`
(linenoise.c:882).  `up`/`down`/`right`/`left`/`home`/`endKey`/`delKey` are
the decoded `ESC` sequences, which invoke the same handlers as the control
keys.  `char c writeOk` is the `default:` case (any byte not matched by
another case), with the outcome of the fast-path `write` inside
`LinenoiseEditInsert`. -/
inductive Key where
  | enter | ctrlC | backspace | ctrlH | ctrlD | ctrlT | ctrlB | ctrlF
  | ctrlP | ctrlN | up | down | right | left | home | endKey | delKey
  | ctrlU | ctrlK | ctrlA | ctrlE | ctrlL | ctrlW
  | char (c : Nat) (writeOk : Bool)
  deriving Repr, DecidableEq

/-- One iteration of the `LinenoiseEdit` loop body for an already decoded
key: the new state plus `true` when the loop returns (ENTER, CTRL-C,
CTRL-D on an empty line, or an insert write error).  `hcb` is whether a
hints callback is registered.  ENTER frees the newest history slot
(`history_len--`), in multi-line mode moves the cursor to the end, and its
final hint-free refresh has no state effect; CTRL-D on an empty line also
drops the newest history slot (the C code decrements `history_len`
unconditionally there).  CTRL-L only writes to the terminal. -/
def LinenoiseEditStep (hcb : Bool) (s : LinenoiseState) : Key → LinenoiseState × Bool
  | .enter =>
      let s := if s.history.length > 0 then { s with history := s.history.dropLast }
               else s
      (if s.mlmode then LinenoiseEditMoveEnd s else s, true)
  | .ctrlC => (s, true)
  | .backspace => (LinenoiseEditBackspace s, false)
  | .ctrlH => (LinenoiseEditBackspace s, false)
  | .ctrlD =>
      if s.len > 0 then (LinenoiseEditDelete s, false)
      else ({ s with history := s.history.dropLast }, true)
  | .ctrlT =>
      if s.pos > 0 ∧ s.pos < s.len then
        let a := s.buf.getD (s.pos - 1) 0
        let b := s.buf.getD s.pos 0
        let s := { s with buf := (s.buf.set (s.pos - 1) b).set s.pos a }
        (if s.pos ≠ s.len - 1 then { s with pos := s.pos + 1 } else s, false)
      else (s, false)
  | .ctrlB => (LinenoiseEditMoveLeft s, false)
  | .ctrlF => (LinenoiseEditMoveRight s, false)
  | .ctrlP => (LinenoiseEditHistoryNext s true, false)
  | .ctrlN => (LinenoiseEditHistoryNext s false, false)
  | .up => (LinenoiseEditHistoryNext s true, false)
  | .down => (LinenoiseEditHistoryNext s false, false)
  | .right => (LinenoiseEditMoveRight s, false)
  | .left => (LinenoiseEditMoveLeft s, false)
  | .home => (LinenoiseEditMoveHome s, false)
  | .endKey => (LinenoiseEditMoveEnd s, false)
  | .delKey => (LinenoiseEditDelete s, false)
  | .ctrlU => ({ s with buf := s.buf.set 0 0, pos := 0, len := 0 }, false)
  | .ctrlK => ({ s with buf := s.buf.set s.pos 0, len := s.pos }, false)
  | .ctrlA => (LinenoiseEditMoveHome s, false)
  | .ctrlE => (LinenoiseEditMoveEnd s, false)
  | .ctrlL => (s, false)
  | .ctrlW => (LinenoiseEditDeletePrevWord s, false)
  | .char c writeOk =>
      let r := LinenoiseEditInsert hcb writeOk s c
      (r.2, r.1 ≠ 0)

/-- The `LinenoiseEdit` loop (linenoise.c:852) over a sequence of decoded
keystrokes: dispatch each key in turn, stopping at the first key whose
step returns. -/
def LinenoiseEditRun (hcb : Bool) (s : LinenoiseState) : List Key → LinenoiseState
  | [] => s
  | k :: ks =>
      let r := LinenoiseEditStep hcb s k
      if r.2 then r.1 else LinenoiseEditRun hcb r.1 ks

/-- The session state at the top of the `LinenoiseEdit` loop of the first
`Linenoise` call on a fresh session: `LinenoiseCreate`, then `Linenoise`
sets `buf[0] = 0` (`LinenoiseRaw` and `EnableRawMode` do not touch the
buffer or history). -/
def initEditState (plen cols : Nat) : LinenoiseState :=
  LinenoiseEntry (LinenoiseCreate plen cols)

/-- `RefreshShowHints` (linenoise.c:499) reduced to the hint text it
appends.  `hasCb` is `l_HintsCallback != NULL`; `hint` is what the
callback would return for the current buffer (`none` for a NULL hint).
The SGR color/bold wrapping adds no printable columns and is omitted.
Result: the (possibly truncated) hint bytes, or `none` when nothing is
rendered. -/
def RefreshShowHints (hasCb : Bool) (hint : Option (List Nat))
    (plen len cols : Nat) : Option (List Nat) :=
  if hasCb ∧ plen + len < cols then
    match hint with
    | some h =>
        let hintmaxlen := cols - (plen + len)
        some (if h.length > hintmaxlen then h.take hintmaxlen else h)
    | none => none
  else none

/-- The hint rendered by `RefreshSingleLine` (linenoise.c:566): it calls
`RefreshShowHints(&ab, l, plen)` with `plen = strlen(l->prompt)`. -/
def RefreshSingleLineHint (hasCb : Bool) (hint : Option (List Nat))
    (plen len cols : Nat) : Option (List Nat) :=
  RefreshShowHints hasCb hint plen len cols

/-- The hint rendered by `RefreshMultiLine` (linenoise.c:627): it calls the
same `RefreshShowHints(&ab, l, plen)` with `plen = strlen(l->prompt)`. -/
def RefreshMultiLineHint (hasCb : Bool) (hint : Option (List Nat))
    (plen len cols : Nat) : Option (List Nat) :=
  RefreshShowHints hasCb hint plen len cols

/-- The hint rendered by one `RefreshLine` (linenoise.c:676), which
dispatches on `mlmode`. -/
def RefreshLineHint (mlmode hasCb : Bool) (hint : Option (List Nat))
    (plen len cols : Nat) : Option (List Nat) :=
  if mlmode then RefreshMultiLineHint hasCb hint plen len cols
  else RefreshSingleLineHint hasCb hint plen len cols

/-- First `while` of `RefreshSingleLine` (linenoise.c:546):
`while ((plen + pos) >= cols) { buf++; len--; pos--; }` with `pos`, `len`
of type `size_t`.  `none` marks the step where a decrement would wrap the
`size_t` arithmetic below zero; otherwise the result is
`(pos, len, skip)` where `skip` counts the `buf++` advances. -/
def slideLoop (plen cols : Nat) : Nat → Nat → Nat → Option (Nat × Nat × Nat)
  | 0, len, skip =>
      if plen + 0 ≥ cols then none else some (0, len, skip)
  | pos + 1, len, skip =>
      if plen + (pos + 1) ≥ cols then
        match len with
        | 0 => none
        | len + 1 => slideLoop plen cols pos len (skip + 1)
      else some (pos + 1, len, skip)

/-- Second `while` of `RefreshSingleLine` (linenoise.c:553):
`while (plen + len > cols) { len--; }`; `none` again marks a `size_t`
wrap of `len--`. -/
def truncLoop (plen cols : Nat) : Nat → Option Nat
  | 0 => if plen + 0 > cols then none else some 0
  | len + 1 =>
      if plen + (len + 1) > cols then truncLoop plen cols len else some (len + 1)

/-- The visible-window computation of `RefreshSingleLine` (linenoise.c:536):
returns `(skip, pos, len)` — how many leading buffer bytes are hidden, the
cursor column inside the window, and the visible length — or `none` when
the loops underflow the `size_t` arithmetic. -/
def RefreshSingleLineWindow (plen pos len cols : Nat) :
    Option (Nat × Nat × Nat) :=
  match slideLoop plen cols pos len 0 with
  | none => none
  | some (pos, len, skip) =>
      match truncLoop plen cols len with
      | none => none
      | some len => some (skip, pos, len)

/-- The byte stream `LinenoiseHistorySave` (linenoise.c:1365) writes on its
success path: `fprintf(fp, "%s\n", ...)` for each entry in order.  The
`umask`/`chmod`/`fopen` file-system effects are not modelled. -/
def LinenoiseHistorySave (s : LinenoiseState) : List Nat :=
  (s.history.map (fun e => e ++ [10])).flatten

/-- One `fgets(buf, LINENOISE_MAX_LINE, fp)` on the remaining file bytes:
at most `LINENOISE_MAX_LINE - 1` bytes, stopping after the first `\n`. -/
def fgetsChunk (file : List Nat) : List Nat :=
  match file.findIdx? (fun b => b == 10) with
  | some i => file.take (min (i + 1) (LINENOISE_MAX_LINE - 1))
  | none => file.take (LINENOISE_MAX_LINE - 1)

/-- The line-ending strip of `LinenoiseHistoryLoad`: in the C string read
by `fgets`, the first `\r` — or, failing that, the first `\n` — is
overwritten with a terminator, so the added line is the bytes before it. -/
def stripLine (chunk : List Nat) : List Nat :=
  let cs := cstr chunk
  match cs.findIdx? (fun b => b == 13) with
  | some i => cs.take i
  | none =>
      match cs.findIdx? (fun b => b == 10) with
      | some i => cs.take i
      | none => cs

/-- The `fgets` loop of `LinenoiseHistoryLoad` (linenoise.c:1397).  `fuel`
is a structural-recursion bound; every iteration on a non-empty file
consumes the non-empty chunk, so `file.length` fuel always suffices (see
`LinenoiseHistoryLoad`). -/
def loadLoop : Nat → LinenoiseState → List Nat → LinenoiseState
  | 0, s, _ => s
  | _ + 1, s, [] => s
  | fuel + 1, s, file =>
      let chunk := fgetsChunk file
      loadLoop fuel (LinenoiseHistoryAdd s (stripLine chunk)).2
        (file.drop chunk.length)

/-- `LinenoiseHistoryLoad` (linenoise.c:1389) on its success path (`fopen`
succeeded), applied to the file contents: each read line, stripped of its
terminator, goes through the normal `LinenoiseHistoryAdd`. -/
def LinenoiseHistoryLoad (s : LinenoiseState) (file : List Nat) : LinenoiseState :=
  loadLoop file.length s file

/-- One call of the public history API: `LinenoiseHistoryAdd` or
`LinenoiseHistorySetMaxLen`. -/
inductive HistOp where
  | add (line : List Nat)
  | setMax (n : Int)
  deriving Repr

/-- Apply one history API call to the session. -/
def applyHistOp (s : LinenoiseState) : HistOp → LinenoiseState
  | .add line => (LinenoiseHistoryAdd s line).2
  | .setMax n => (LinenoiseHistorySetMaxLen s n).2

/-- The state invariant of the editing loop: the cursor is inside the
line, the line fits the buffer (`len` may reach `buflen`), the buffer is
the allocated `buflen + 1` byte array, and the byte at `len` is the
terminator. -/
def EditInv (s : LinenoiseState) : Prop :=
  s.pos ≤ s.len ∧ s.len ≤ s.buflen ∧ 1 ≤ s.buflen ∧
    s.buf.length = s.buflen + 1 ∧ s.buf[s.len]? = some 0

/-- The edit state after `n` inserts of the byte `a` into the fresh
session `initEditState 2 80` (for `n ≤ buflen`). -/
def filledState (n : Nat) : LinenoiseState :=
  { initEditState 2 80 with
      buf := List.replicate n 97 ++ List.replicate (LINENOISE_MAX_LINE - n) 0
      pos := n
      len := n }

/-- A session whose history is empty, as the target of a history load. -/
def emptyHistState : LinenoiseState :=
  { LinenoiseCreate 2 80 with history := [] }

/-- A session whose line buffer is full (`len = buflen`), used to exercise
the at-capacity path of `LinenoiseEditInsert`. -/
def fullBufState : LinenoiseState :=
  { initEditState 2 80 with
      buf := List.replicate 4095 97 ++ [0]
      pos := 4095
      len := 4095 }

/-- The session after its first `Linenoise` call, during which the user
typed `h`, `i`, ENTER (so the call returned "hi"). -/
def afterFirstLine : LinenoiseState :=
  LinenoiseEditRun false (initEditState 2 80)
    [Key.char 104 true, Key.char 105 true, Key.enter]

/-- The session at the top of the editing loop of its second `Linenoise`
call: after the first call returned "hi" the host added the history
entries "hi" and "two", and `Linenoise` then performs only
`ls->buf[0] = 0` before `LinenoiseEdit` starts reading keys (no scratch
history slot is appended anywhere on this path). -/
def secondEntryState : LinenoiseState :=
  LinenoiseEntry
    (LinenoiseHistoryAdd
      (LinenoiseHistoryAdd afterFirstLine [104, 105]).2 [116, 119, 111]).2

/-- The session after the user presses UP (arrow up) at the start of the
second `Linenoise` call. -/
def afterUpSecond : LinenoiseState :=
  LinenoiseEditRun false secondEntryState [Key.up]

/-! ### Helper lemmas about buffers -/

theorem cstr_length_le_of_zero (l : List Nat) (i : Nat) (h : l[i]? = some 0) :
    (cstr l).length ≤ i := by
  induction l generalizing i with
  | nil => simp at h
  | cons a t ih =>
      cases i with
      | zero =>
          simp at h
          simp [cstr, List.takeWhile_cons, h]
      | succ j =>
          simp only [List.getElem?_cons_succ] at h
          by_cases ha : a = 0
          · simp [cstr, List.takeWhile_cons, ha]
          · have := ih j h
            simp only [cstr, List.takeWhile_cons] at *
            simp only [bne_iff_ne, ne_eq, ha, not_false_eq_true, if_true,
              decide_not]
            simpa [ha] using Nat.succ_le_succ this

theorem cstr_getElem_zero (l : List Nat) (h : (cstr l).length < l.length) :
    l[(cstr l).length]? = some 0 := by
  induction l with
  | nil => simp at h
  | cons a t ih =>
      by_cases ha : a = 0
      · simp [cstr, List.takeWhile_cons, ha]
      · simp only [cstr, List.takeWhile_cons, bne_iff_ne, ne_eq, ha,
          not_false_eq_true, decide_not] at h ⊢
        simp only [ha, decide_False, Bool.not_false, if_true, List.length_cons] at h ⊢
        have := ih (by simpa [cstr] using Nat.lt_of_succ_lt_succ h)
        simpa [cstr] using this

theorem cstr_set_zero (l : List Nat) : cstr (l.set 0 0) = [] := by
  cases l with
  | nil => rfl
  | cons a t => rfl

theorem memmoveList_length (l : List Nat) (dst src n : Nat)
    (h1 : dst + n ≤ l.length) (h2 : src + n ≤ l.length) :
    (memmoveList l dst src n).length = l.length := by
  simp only [memmoveList, List.length_append, List.length_take, List.length_drop]
  omega

theorem memmoveList_getElem (l : List Nat) (dst src n j : Nat)
    (h1 : dst + n ≤ l.length) (h2 : src + n ≤ l.length) (hj : j < n) :
    (memmoveList l dst src n)[dst + j]? = l[src + j]? := by
  have hdst : (l.take dst).length = dst := by
    simp [List.length_take]; omega
  have hmid : ((l.drop src).take n).length = n := by
    simp [List.length_take, List.length_drop]; omega
  rw [memmoveList,
    List.getElem?_append_left
      (by simp only [List.length_append, hdst, hmid]; omega :
        dst + j < (l.take dst ++ (l.drop src).take n).length),
    List.getElem?_append_right (by omega : (l.take dst).length ≤ dst + j),
    hdst, Nat.add_sub_cancel_left, List.getElem?_take_of_lt hj,
    List.getElem?_drop]

theorem strncpyBuf_length (dst src : List Nat) (n : Nat) (h : n ≤ dst.length) :
    (strncpyBuf dst src n).length = dst.length := by
  simp only [strncpyBuf, List.length_append, List.length_take,
    List.length_replicate, List.length_drop]
  omega

theorem skipSpaces_le (buf : List Nat) (p : Nat) : skipSpaces buf p ≤ p := by
  induction p with
  | zero => simp [skipSpaces]
  | succ q ih =>
      simp only [skipSpaces]
      split
      · omega
      · omega

theorem skipWord_le (buf : List Nat) (p : Nat) : skipWord buf p ≤ p := by
  induction p with
  | zero => simp [skipWord]
  | succ q ih =>
      simp only [skipWord]
      split
      · omega
      · omega

/-! ### Preservation of the editing invariant -/

theorem editInv_insert (hcb writeOk : Bool) (s : LinenoiseState) (c : Nat)
    (h : EditInv s) : EditInv (LinenoiseEditInsert hcb writeOk s c).2 := by
  obtain ⟨hpl, hlb, hb1, hlen, hz⟩ := h
  have hFast : EditInv { s with buf := (s.buf.set s.pos c).set (s.len + 1) 0
                                pos := s.pos + 1
                                len := s.len + 1 } → _ := fun hh => hh
  unfold LinenoiseEditInsert
  dsimp only
  split
  · rename_i hcap
    split
    · have hMain : EditInv { s with buf := (s.buf.set s.pos c).set (s.len + 1) 0
                                    pos := s.pos + 1
                                    len := s.len + 1 } := by
        refine ⟨?_, ?_, ?_, ?_, ?_⟩ <;> dsimp only
        · omega
        · omega
        · exact hb1
        · simp [hlen]
        · exact List.getElem?_set_self (by simp [hlen]; omega)
      split
      · split
        · exact hMain
        · exact hMain
      · exact hMain
    · have hmm : (memmoveList s.buf (s.pos + 1) s.pos (s.len - s.pos)).length =
          s.buflen + 1 := by
        rw [memmoveList_length _ _ _ _ (by omega) (by omega)]
        exact hlen
      refine ⟨?_, ?_, ?_, ?_, ?_⟩ <;> dsimp only
      · omega
      · omega
      · exact hb1
      · simp [hmm]
      · exact List.getElem?_set_self (by simp [hmm]; omega)
  · exact ⟨hpl, hlb, hb1, hlen, hz⟩

theorem editInv_backspace (s : LinenoiseState) (h : EditInv s) :
    EditInv (LinenoiseEditBackspace s) := by
  obtain ⟨hpl, hlb, hb1, hlen, hz⟩ := h
  unfold LinenoiseEditBackspace
  split
  · have hmm : (memmoveList s.buf (s.pos - 1) s.pos (s.len - s.pos)).length =
        s.buflen + 1 := by
      rw [memmoveList_length _ _ _ _ (by omega) (by omega)]
      exact hlen
    refine ⟨?_, ?_, ?_, ?_, ?_⟩ <;> dsimp only
    · omega
    · omega
    · exact hb1
    · simp [hmm]
    · exact List.getElem?_set_self (by simp [hmm]; omega)
  · exact ⟨hpl, hlb, hb1, hlen, hz⟩

theorem editInv_delete (s : LinenoiseState) (h : EditInv s) :
    EditInv (LinenoiseEditDelete s) := by
  obtain ⟨hpl, hlb, hb1, hlen, hz⟩ := h
  unfold LinenoiseEditDelete
  split
  · rename_i hg
    have hmm : (memmoveList s.buf s.pos (s.pos + 1) (s.len - s.pos - 1)).length =
        s.buflen + 1 := by
      rw [memmoveList_length _ _ _ _ (by omega) (by omega)]
      exact hlen
    refine ⟨?_, ?_, ?_, ?_, ?_⟩ <;> dsimp only
    · omega
    · omega
    · exact hb1
    · simp [hmm]
    · exact List.getElem?_set_self (by simp [hmm]; omega)
  · exact ⟨hpl, hlb, hb1, hlen, hz⟩

theorem editInv_deletePrevWord (s : LinenoiseState) (h : EditInv s) :
    EditInv (LinenoiseEditDeletePrevWord s) := by
  obtain ⟨hpl, hlb, hb1, hlen, hz⟩ := h
  have hp : skipWord s.buf (skipSpaces s.buf s.pos) ≤ s.pos :=
    le_trans (skipWord_le _ _) (skipSpaces_le _ _)
  unfold LinenoiseEditDeletePrevWord
  dsimp only
  refine ⟨?_, ?_, ?_, ?_, ?_⟩ <;> dsimp only
  · omega
  · omega
  · exact hb1
  · rw [memmoveList_length _ _ _ _ (by omega) (by omega)]
    exact hlen
  · have hidx : s.len - (s.pos - skipWord s.buf (skipSpaces s.buf s.pos)) =
        skipWord s.buf (skipSpaces s.buf s.pos) + (s.len - s.pos) := by omega
    rw [hidx,
      memmoveList_getElem s.buf _ s.pos (s.len - s.pos + 1) (s.len - s.pos)
        (by omega) (by omega) (by omega)]
    have hto : s.pos + (s.len - s.pos) = s.len := by omega
    rw [hto]
    exact hz

theorem editInv_strncpy (s : LinenoiseState) (e : List Nat)
    (hist : List (List Nat)) (hidx : Int)
    (hb1 : 1 ≤ s.buflen) (hlen : s.buf.length = s.buflen + 1) :
    EditInv { s with
        history := hist
        history_index := hidx
        buf := (strncpyBuf s.buf e s.buflen).set (s.buflen - 1) 0
        len := strlenBuf ((strncpyBuf s.buf e s.buflen).set (s.buflen - 1) 0)
        pos := strlenBuf ((strncpyBuf s.buf e s.buflen).set (s.buflen - 1) 0) } := by
  have hslen : (strncpyBuf s.buf e s.buflen).length = s.buflen + 1 := by
    rw [strncpyBuf_length _ _ _ (by omega)]
    exact hlen
  have hterm : ((strncpyBuf s.buf e s.buflen).set (s.buflen - 1) 0)[s.buflen - 1]? =
      some 0 :=
    List.getElem?_set_self (by omega)
  have hsl : (cstr ((strncpyBuf s.buf e s.buflen).set (s.buflen - 1) 0)).length ≤
      s.buflen - 1 :=
    cstr_length_le_of_zero _ _ hterm
  refine ⟨?_, ?_, ?_, ?_, ?_⟩ <;> dsimp only
  · exact le_refl _
  · simp only [strlenBuf]
    omega
  · exact hb1
  · simp [hslen]
  · exact cstr_getElem_zero _ (by simp only [List.length_set, hslen]; omega)

theorem editInv_historyNext (s : LinenoiseState) (dir : Bool) (h : EditInv s) :
    EditInv (LinenoiseEditHistoryNext s dir) := by
  obtain ⟨hpl, hlb, hb1, hlen, hz⟩ := h
  unfold LinenoiseEditHistoryNext
  dsimp only
  generalize (if dir = true then (1 : Int) else -1) = d
  split
  · split
    · exact ⟨hpl, hlb, hb1, hlen, hz⟩
    · split
      · exact ⟨hpl, hlb, hb1, hlen, hz⟩
      · exact editInv_strncpy s _ _ _ hb1 hlen
  · exact ⟨hpl, hlb, hb1, hlen, hz⟩

theorem editInv_moveLeft (s : LinenoiseState) (h : EditInv s) :
    EditInv (LinenoiseEditMoveLeft s) := by
  obtain ⟨hpl, hlb, hb1, hlen, hz⟩ := h
  unfold LinenoiseEditMoveLeft
  split
  · exact ⟨by dsimp only; omega, hlb, hb1, hlen, hz⟩
  · exact ⟨hpl, hlb, hb1, hlen, hz⟩

theorem editInv_moveRight (s : LinenoiseState) (h : EditInv s) :
    EditInv (LinenoiseEditMoveRight s) := by
  obtain ⟨hpl, hlb, hb1, hlen, hz⟩ := h
  unfold LinenoiseEditMoveRight
  split
  · rename_i hg
    exact ⟨by dsimp only; omega, hlb, hb1, hlen, hz⟩
  · exact ⟨hpl, hlb, hb1, hlen, hz⟩

theorem editInv_moveHome (s : LinenoiseState) (h : EditInv s) :
    EditInv (LinenoiseEditMoveHome s) := by
  obtain ⟨hpl, hlb, hb1, hlen, hz⟩ := h
  unfold LinenoiseEditMoveHome
  split
  · exact ⟨by dsimp only; omega, hlb, hb1, hlen, hz⟩
  · exact ⟨hpl, hlb, hb1, hlen, hz⟩

theorem editInv_moveEnd (s : LinenoiseState) (h : EditInv s) :
    EditInv (LinenoiseEditMoveEnd s) := by
  obtain ⟨hpl, hlb, hb1, hlen, hz⟩ := h
  unfold LinenoiseEditMoveEnd
  split
  · exact ⟨by dsimp only; exact le_refl _, hlb, hb1, hlen, hz⟩
  · exact ⟨hpl, hlb, hb1, hlen, hz⟩

theorem editInv_step (hcb : Bool) (s : LinenoiseState) (k : Key)
    (h : EditInv s) : EditInv (LinenoiseEditStep hcb s k).1 := by
  obtain ⟨hpl, hlb, hb1, hlen, hz⟩ := h
  cases k with
  | enter =>
      simp only [LinenoiseEditStep]
      have hbase : EditInv { s with history := s.history.dropLast } :=
        ⟨hpl, hlb, hb1, hlen, hz⟩
      split
      · split
        · exact editInv_moveEnd _ hbase
        · exact hbase
      · split
        · exact editInv_moveEnd _ ⟨hpl, hlb, hb1, hlen, hz⟩
        · exact ⟨hpl, hlb, hb1, hlen, hz⟩
  | ctrlC => exact ⟨hpl, hlb, hb1, hlen, hz⟩
  | backspace => exact editInv_backspace _ ⟨hpl, hlb, hb1, hlen, hz⟩
  | ctrlH => exact editInv_backspace _ ⟨hpl, hlb, hb1, hlen, hz⟩
  | ctrlD =>
      simp only [LinenoiseEditStep]
      split
      · exact editInv_delete _ ⟨hpl, hlb, hb1, hlen, hz⟩
      · exact ⟨hpl, hlb, hb1, hlen, hz⟩
  | ctrlT =>
      simp only [LinenoiseEditStep]
      split
      · rename_i hg
        have hbuf : ((s.buf.set (s.pos - 1) (s.buf.getD s.pos 0)).set s.pos
            (s.buf.getD (s.pos - 1) 0)).length = s.buflen + 1 := by
          simp [hlen]
        have hzz : ((s.buf.set (s.pos - 1) (s.buf.getD s.pos 0)).set s.pos
            (s.buf.getD (s.pos - 1) 0))[s.len]? = some 0 := by
          rw [List.getElem?_set_ne (by omega), List.getElem?_set_ne (by omega)]
          exact hz
        split
        · exact ⟨by dsimp only; omega, hlb, hb1, hbuf, hzz⟩
        · exact ⟨by dsimp only; omega, hlb, hb1, hbuf, hzz⟩
      · exact ⟨hpl, hlb, hb1, hlen, hz⟩
  | ctrlB => exact editInv_moveLeft _ ⟨hpl, hlb, hb1, hlen, hz⟩
  | ctrlF => exact editInv_moveRight _ ⟨hpl, hlb, hb1, hlen, hz⟩
  | ctrlP => exact editInv_historyNext _ _ ⟨hpl, hlb, hb1, hlen, hz⟩
  | ctrlN => exact editInv_historyNext _ _ ⟨hpl, hlb, hb1, hlen, hz⟩
  | up => exact editInv_historyNext _ _ ⟨hpl, hlb, hb1, hlen, hz⟩
  | down => exact editInv_historyNext _ _ ⟨hpl, hlb, hb1, hlen, hz⟩
  | right => exact editInv_moveRight _ ⟨hpl, hlb, hb1, hlen, hz⟩
  | left => exact editInv_moveLeft _ ⟨hpl, hlb, hb1, hlen, hz⟩
  | home => exact editInv_moveHome _ ⟨hpl, hlb, hb1, hlen, hz⟩
  | endKey => exact editInv_moveEnd _ ⟨hpl, hlb, hb1, hlen, hz⟩
  | delKey => exact editInv_delete _ ⟨hpl, hlb, hb1, hlen, hz⟩
  | ctrlU =>
      refine ⟨?_, ?_, ?_, ?_, ?_⟩ <;> dsimp only [LinenoiseEditStep]
      · omega
      · omega
      · exact hb1
      · simp [hlen]
      · exact List.getElem?_set_self (by omega)
  | ctrlK =>
      refine ⟨?_, ?_, ?_, ?_, ?_⟩ <;> dsimp only [LinenoiseEditStep]
      · exact le_refl _
      · omega
      · exact hb1
      · simp [hlen]
      · exact List.getElem?_set_self (by omega)
  | ctrlA => exact editInv_moveHome _ ⟨hpl, hlb, hb1, hlen, hz⟩
  | ctrlE => exact editInv_moveEnd _ ⟨hpl, hlb, hb1, hlen, hz⟩
  | ctrlL => exact ⟨hpl, hlb, hb1, hlen, hz⟩
  | ctrlW => exact editInv_deletePrevWord _ ⟨hpl, hlb, hb1, hlen, hz⟩
  | char c writeOk => exact editInv_insert hcb writeOk _ c ⟨hpl, hlb, hb1, hlen, hz⟩

theorem editInv_run (hcb : Bool) (s : LinenoiseState) (keys : List Key)
    (h : EditInv s) : EditInv (LinenoiseEditRun hcb s keys) := by
  induction keys generalizing s with
  | nil => exact h
  | cons k ks ih =>
      simp only [LinenoiseEditRun]
      split
      · exact editInv_step hcb s k h
      · exact ih _ (editInv_step hcb s k h)

theorem editInv_init (plen cols : Nat) : EditInv (initEditState plen cols) := by
  refine ⟨le_refl _, ?_, ?_, ?_, ?_⟩
  · show (0 : Nat) ≤ LINENOISE_MAX_LINE - 1
    decide
  · show (1 : Nat) ≤ LINENOISE_MAX_LINE - 1
    decide
  · show ((List.replicate (4096 : Nat) (0 : Nat)).set 0 0).length = 4096 - 1 + 1
    rw [List.length_set, List.length_replicate]
  · show ((List.replicate (4096 : Nat) (0 : Nat)).set 0 0)[(0 : Nat)]? = some 0
    exact List.getElem?_set_self (by rw [List.length_replicate]; decide)

/-! ### The insert chain that fills the buffer -/

theorem filledState_buf_step (a : Nat) (ha : a ≤ 4094) :
    ((List.replicate a 97 ++ List.replicate (4096 - a) (0 : Nat)).set a 97).set
        (a + 1) 0 =
      List.replicate (a + 1) 97 ++ List.replicate (4096 - (a + 1)) 0 := by
  have h1 : 4096 - a = (4095 - a) + 1 := by omega
  have h2 : 4095 - a = (4094 - a) + 1 := by omega
  have e1 : (List.replicate a 97 ++ List.replicate (4096 - a) (0 : Nat)).set a 97 =
      List.replicate a 97 ++ (97 :: List.replicate (4095 - a) 0) := by
    rw [List.set_append_right _ _ (by rw [List.length_replicate]),
      List.length_replicate, Nat.sub_self, h1, List.replicate_succ]
    rfl
  have e2 : (List.replicate a 97 ++
        (97 :: List.replicate (4095 - a) (0 : Nat))).set (a + 1) 0 =
      List.replicate a 97 ++ (97 :: List.replicate (4095 - a) 0) := by
    rw [List.set_append_right _ _ (by rw [List.length_replicate]; omega),
      List.length_replicate]
    have h3 : a + 1 - a = 1 := by omega
    rw [h3, h2, List.replicate_succ]
    rfl
  rw [e1, e2]
  have h4 : 4096 - (a + 1) = 4095 - a := by omega
  rw [h4, List.replicate_succ', List.append_assoc]
  rfl

theorem insert_filledState (a : Nat) (ha : a ≤ 4094) :
    LinenoiseEditInsert false true (filledState a) 97 = (0, filledState (a + 1)) := by
  have hlen : (filledState a).len = a := rfl
  have hpos : (filledState a).pos = a := rfl
  have hblen : (filledState a).buflen = 4095 := rfl
  have hbuf : (filledState a).buf =
      List.replicate a 97 ++ List.replicate (4096 - a) 0 := rfl
  unfold LinenoiseEditInsert
  dsimp only
  rw [hlen, hpos, hblen, hbuf, if_pos (by omega : a < 4095), if_pos rfl]
  rw [filledState_buf_step a ha]
  split
  · rfl
  · rfl

theorem step_filledState (a : Nat) (ha : a ≤ 4094) :
    LinenoiseEditStep false (filledState a) (Key.char 97 true) =
      (filledState (a + 1), false) := by
  simp only [LinenoiseEditStep]
  rw [insert_filledState a ha]
  rfl

theorem run_insert_filledState (b : Nat) : ∀ a : Nat, a + b ≤ 4095 →
    LinenoiseEditRun false (filledState a) (List.replicate b (Key.char 97 true)) =
      filledState (a + b) := by
  induction b with
  | zero =>
      intro a _
      rfl
  | succ m ih =>
      intro a ha
      rw [List.replicate_succ]
      show (let r := LinenoiseEditStep false (filledState a) (Key.char 97 true)
        if r.2 then r.1
        else LinenoiseEditRun false r.1 (List.replicate m (Key.char 97 true))) =
        filledState (a + (m + 1))
      rw [step_filledState a (by omega)]
      dsimp only
      rw [ih (a + 1) (by omega)]
      have heq : a + 1 + m = a + (m + 1) := by omega
      rw [heq]
      rfl

theorem initEditState_eq_filledState_zero : initEditState 2 80 = filledState 0 := by
  have hbuf : (List.replicate 4096 (0 : Nat)).set 0 0 =
      [] ++ List.replicate (4096 - 0) 0 := by
    rw [List.replicate_succ]
    rfl
  show LinenoiseEntry (LinenoiseCreate 2 80) = filledState 0
  unfold LinenoiseEntry filledState initEditState
  rw [show ((4096 : Nat) - 0) = 4096 from rfl] at hbuf
  congr 1

/-! ### History API lemmas -/

theorem histLe_applyHistOp (s : LinenoiseState) (op : HistOp)
    (h : s.history.length ≤ s.history_max_len) :
    (applyHistOp s op).history.length ≤ (applyHistOp s op).history_max_len := by
  cases op with
  | add line =>
      show (LinenoiseHistoryAdd s line).2.history.length ≤
        (LinenoiseHistoryAdd s line).2.history_max_len
      unfold LinenoiseHistoryAdd
      dsimp only
      split
      · exact h
      · split
        · exact h
        · split
          · rename_i hfull
            dsimp only
            simp only [List.length_append, List.length_drop, List.length_cons,
              List.length_nil]
            omega
          · rename_i hnotfull
            dsimp only
            simp only [List.length_append, List.length_cons, List.length_nil]
            omega
  | setMax n =>
      show (LinenoiseHistorySetMaxLen s n).2.history.length ≤
        (LinenoiseHistorySetMaxLen s n).2.history_max_len
      unfold LinenoiseHistorySetMaxLen
      dsimp only
      split
      · exact h
      · split
        · rename_i hgt
          dsimp only
          simp only [List.length_take, List.length_drop]
          omega
        · rename_i hle
          dsimp only
          simp only [List.length_drop]
          omega

theorem histLe_foldl (ops : List HistOp) : ∀ (s : LinenoiseState),
    s.history.length ≤ s.history_max_len →
    (ops.foldl applyHistOp s).history.length ≤
      (ops.foldl applyHistOp s).history_max_len := by
  induction ops with
  | nil => intro s h; exact h
  | cons op ops ih =>
      intro s h
      exact ih _ (histLe_applyHistOp s op h)

theorem historyAdd_dedup (s : LinenoiseState) (line : List Nat)
    (h : s.history.getLast? = some line) :
    LinenoiseHistoryAdd s line = (0, s) := by
  unfold LinenoiseHistoryAdd
  split
  · rfl
  · have hne : s.history ≠ [] := by
      intro he
      rw [he] at h
      simp at h
    rw [if_pos ⟨by simpa [List.length_eq_zero] using hne, h⟩]

theorem historyAdd_changes (s : LinenoiseState) (line : List Nat)
    (h : (LinenoiseHistoryAdd s line).2.history ≠ s.history) :
    (LinenoiseHistoryAdd s line).2.history.getLast? = some line ∧
      s.history.getLast? ≠ some line := by
  unfold LinenoiseHistoryAdd at h ⊢
  dsimp only at h ⊢
  split at h
  · exact absurd rfl h
  · rename_i hmax
    split at h
    · exact absurd rfl h
    · rename_i hdedup
      constructor
      · rw [if_neg hmax, if_neg hdedup]
        dsimp only
        split
        · exact List.getLast?_concat _
        · exact List.getLast?_concat _
      · by_cases hemp : s.history.length = 0
        · rw [List.length_eq_zero] at hemp
          rw [hemp]
          simp
        · intro hlast
          exact hdedup ⟨hemp, hlast⟩

/-! ### Single-line window lemmas -/

theorem slideLoop_ok (plen cols : Nat) (hc : plen < cols) :
    ∀ pos len skip : Nat, pos ≤ len →
      ∃ p2 l2 sk, slideLoop plen cols pos len skip = some (p2, l2, sk) ∧
        plen + p2 < cols ∧ p2 ≤ l2 := by
  intro pos
  induction pos with
  | zero =>
      intro len skip h
      refine ⟨0, len, skip, ?_, by omega, by omega⟩
      simp only [slideLoop]
      rw [if_neg (by omega)]
  | succ m ih =>
      intro len skip h
      simp only [slideLoop]
      by_cases hge : plen + (m + 1) ≥ cols
      · rw [if_pos hge]
        cases len with
        | zero => omega
        | succ l2 =>
            dsimp only
            exact ih l2 (skip + 1) (by omega)
      · rw [if_neg hge]
        exact ⟨m + 1, len, skip, rfl, by omega, h⟩

theorem truncLoop_ok (plen cols : Nat) (hc : plen < cols) :
    ∀ len : Nat, ∃ l2, truncLoop plen cols len = some l2 ∧ plen + l2 ≤ cols := by
  intro len
  induction len with
  | zero =>
      refine ⟨0, ?_, by omega⟩
      simp only [truncLoop]
      rw [if_neg (by omega)]
  | succ m ih =>
      simp only [truncLoop]
      by_cases hgt : plen + (m + 1) > cols
      · rw [if_pos hgt]
        exact ih
      · rw [if_neg hgt]
        exact ⟨m + 1, rfl, by omega⟩

/-! ### History save/load lemmas -/

theorem findIdx_append_cons (p : Nat → Bool) (e t : List Nat) (b : Nat)
    (he : ∀ x ∈ e, p x = false) (hb : p b = true) :
    (e ++ b :: t).findIdx? p = some e.length := by
  induction e with
  | nil => simp [List.findIdx?_cons, hb]
  | cons a e ih =>
      have ha : p a = false := he a (by simp)
      have ih2 := ih (fun x hx => he x (by simp [hx]))
      simp [List.findIdx?_cons, ha, List.findIdx?_succ, ih2]

theorem findIdx_none (p : Nat → Bool) (l : List Nat)
    (h : ∀ x ∈ l, p x = false) : l.findIdx? p = none :=
  List.findIdx?_eq_none_iff.mpr h

theorem fgetsChunk_append (e t : List Nat)
    (he : ∀ x ∈ e, x ≠ 10) (hlen : e.length + 1 ≤ 4095) :
    fgetsChunk (e ++ 10 :: t) = e ++ [10] := by
  unfold fgetsChunk
  rw [findIdx_append_cons _ e t 10
    (fun x hx => by simpa using he x hx) (by simp)]
  dsimp only
  have hmin : min (e.length + 1) (LINENOISE_MAX_LINE - 1) = e.length + 1 := by
    show min (e.length + 1) 4095 = e.length + 1
    omega
  rw [hmin, List.take_append 1]
  rfl

theorem drop_append_cons (e t : List Nat) (b : Nat) :
    (e ++ b :: t).drop (e.length + 1) = t := by
  rw [List.drop_append 1]
  rfl

theorem stripLine_append (e : List Nat)
    (hcl : ∀ x ∈ e, x ≠ 0 ∧ x ≠ 10 ∧ x ≠ 13) :
    stripLine (e ++ [10]) = e := by
  unfold stripLine
  have hcs : cstr (e ++ [10]) = e ++ [10] := by
    unfold cstr
    rw [List.takeWhile_eq_self_iff.mpr]
    intro x hx
    rcases List.mem_append.mp hx with hx | hx
    · simpa using (hcl x hx).1
    · simp at hx
      simp [hx]
  rw [hcs]
  dsimp only
  rw [findIdx_none _ _ (fun x hx => by
    rcases List.mem_append.mp hx with hx | hx
    · simpa using (hcl x hx).2.2
    · simp at hx
      simp [hx])]
  dsimp only
  rw [findIdx_append_cons _ e [] 10
    (fun x hx => by simpa using (hcl x hx).2.1) (by simp)]
  dsimp only
  exact List.take_left e [10]

theorem historyAdd_append_fresh (s : LinenoiseState) (e : List Nat)
    (hmax : s.history_max_len ≠ 0)
    (hlast : s.history.getLast? ≠ some e)
    (hroom : s.history.length < s.history_max_len) :
    LinenoiseHistoryAdd s e = (1, { s with history := s.history ++ [e] }) := by
  unfold LinenoiseHistoryAdd
  rw [if_neg hmax,
    if_neg (by
      rintro ⟨h1, h2⟩
      exact hlast h2)]
  dsimp only
  rw [if_neg (by omega)]

theorem saveBytes_cons (e : List Nat) (rest : List (List Nat)) :
    (((e :: rest).map (fun x => x ++ [10])).flatten) =
      (e ++ [10]) ++ ((rest.map (fun x => x ++ [10])).flatten) := by
  simp

theorem loadLoop_save (rest : List (List Nat)) : ∀ (fuel : Nat) (s : LinenoiseState),
    (∀ e ∈ rest, ∀ x ∈ e, x ≠ 0 ∧ x ≠ 10 ∧ x ≠ 13) →
    (∀ e ∈ rest, e.length + 1 ≤ 4095) →
    rest.Chain' (fun a b => a ≠ b) →
    (∀ e0, rest.head? = some e0 → s.history.getLast? ≠ some e0) →
    s.history.length + rest.length ≤ s.history_max_len →
    ((rest.map (fun x => x ++ [10])).flatten).length ≤ fuel →
    loadLoop fuel s ((rest.map (fun x => x ++ [10])).flatten) =
      { s with history := s.history ++ rest } := by
  induction rest with
  | nil =>
      intro fuel s _ _ _ _ _ _
      cases fuel with
      | zero => simp [loadLoop]
      | succ m => simp [loadLoop]
  | cons e rest ih =>
      intro fuel s hclean hfit hchain hhead hmax hfuel
      rw [saveBytes_cons] at hfuel ⊢
      have hcons : (e ++ [10]) ++ ((rest.map (fun x => x ++ [10])).flatten) =
          e ++ 10 :: ((rest.map (fun x => x ++ [10])).flatten) := by
        simp
      rw [hcons] at hfuel ⊢
      cases fuel with
      | zero =>
          exfalso
          simp only [List.length_append, List.length_cons] at hfuel
          omega
      | succ m =>
          have hstep : loadLoop (m + 1) s
              (e ++ 10 :: ((rest.map (fun x => x ++ [10])).flatten)) =
              loadLoop m
                (LinenoiseHistoryAdd s (stripLine
                  (fgetsChunk (e ++ 10 :: ((rest.map (fun x => x ++ [10])).flatten))))).2
                ((e ++ 10 :: ((rest.map (fun x => x ++ [10])).flatten)).drop
                  (fgetsChunk (e ++ 10 :: ((rest.map (fun x => x ++ [10])).flatten))).length) := by
            cases e with
            | nil => rfl
            | cons a e2 => rfl
          rw [hstep,
            fgetsChunk_append e _ (fun x hx => (hclean e (by simp) x hx).2.1)
              (hfit e (by simp)),
            stripLine_append e (hclean e (by simp))]
          have hlenchunk : (e ++ [10]).length = e.length + 1 := by simp
          rw [hlenchunk, drop_append_cons]
          rw [historyAdd_append_fresh s e (by simp at hmax; omega)
            (hhead e rfl) (by simp at hmax; omega)]
          have hchain2 : rest.Chain' (fun a b => a ≠ b) :=
            (List.chain'_cons'.mp hchain).2
          have hhead2 : ∀ e0, rest.head? = some e0 →
              ({ s with history := s.history ++ [e] } :
                LinenoiseState).history.getLast? ≠ some e0 := by
            intro e0 h0
            have hne : e ≠ e0 := (List.chain'_cons'.mp hchain).1 e0 h0
            dsimp only
            rw [List.getLast?_concat]
            intro hcontra
            exact hne (by simpa using hcontra)
          have := ih m { s with history := s.history ++ [e] }
            (fun x hx => hclean x (by simp [hx]))
            (fun x hx => hfit x (by simp [hx]))
            hchain2 hhead2
            (by
              dsimp only
              simp only [List.length_append, List.length_cons, List.length_nil]
                at hmax ⊢
              omega)
            (by
              simp only [List.length_append, List.length_cons] at hfuel
              omega)
          rw [this]
          dsimp only
          rw [List.append_assoc]
          rfl

/-! ### The claims -/

/-- C1.  The claim says a successful `EnableRawMode` (TTY fd, `tcgetattr`
and `tcsetattr` succeed) returns success and sets `rawmode` to true.  The
code indeed returns 0, but line 234 sets `ls->rawmode = false`, so the flag
that `DisableRawMode` tests is never raised: this theorem evaluates the
success path and exhibits `rawmode = false`. -/
theorem claim_C1_enableRawMode_success_leaves_rawmode_false (s : LinenoiseState) :
    (EnableRawMode s true true true).1 = 0 ∧
      (EnableRawMode s true true true).2.rawmode = false :=
  ⟨rfl, rfl⟩

/-- C2 (amended).  For every sequence of dispatched keystrokes from the
fresh-session edit state, after every dispatch step the state satisfies
`0 ≤ pos ≤ len ≤ buflen` and `buf[len] = 0` (`EditInv` additionally
records the constant facts `1 ≤ buflen` and `buf.length = buflen + 1`).
The claim's strict `len < buflen` is false: `len = buflen` is reached
when the buffer fills (see the counterexample). -/
theorem claim_C2_edit_invariant (plen cols : Nat) (hcb : Bool) (keys : List Key) :
    EditInv (LinenoiseEditRun hcb (initEditState plen cols) keys) :=
  editInv_run hcb _ keys (editInv_init plen cols)

/-- C2, counterexample to the claim as stated: after 4095 inserts from the
empty buffer the state has `len = 4095 = buflen`, so `len < buflen`
fails at this quiescent point. -/
theorem claim_C2_counterexample :
    ¬ ((LinenoiseEditRun false (initEditState 2 80)
          (List.replicate 4095 (Key.char 97 true))).len <
        (LinenoiseEditRun false (initEditState 2 80)
          (List.replicate 4095 (Key.char 97 true))).buflen) := by
  rw [initEditState_eq_filledState_zero, run_insert_filledState 4095 0 (by omega)]
  show ¬ ((4095 : Nat) < 4095)
  decide

/-- C3.  The claim says the edit buffer is empty (`len = 0`, `pos = 0`,
`buf[0] = 0`) after `LinenoiseClearBuffer` and at the start of each
`Linenoise` call.  On the session that just returned "hi":
`LinenoiseClearBuffer` zeroes the bytes and `pos` but leaves `len = 2`,
and the `Linenoise` entry (`buf[0] = 0`) leaves both `len = 2` and
`pos = 2`; only `buf[0] = 0` holds. -/
theorem claim_C3_buffer_not_reset :
    afterFirstLine.len = 2 ∧ afterFirstLine.pos = 2 ∧
      (LinenoiseClearBuffer afterFirstLine).len = 2 ∧
      (LinenoiseClearBuffer afterFirstLine).pos = 0 ∧
      (LinenoiseEntry afterFirstLine).len = 2 ∧
      (LinenoiseEntry afterFirstLine).pos = 2 ∧
      (LinenoiseEntry afterFirstLine).buf[0]? = some 0 := by
  have hblen : afterFirstLine.buf.length = afterFirstLine.buflen + 1 :=
    (editInv_run false (initEditState 2 80)
      [Key.char 104 true, Key.char 105 true, Key.enter] (editInv_init 2 80)).2.2.2.1
  have hbuflen : afterFirstLine.buflen = 4095 := rfl
  refine ⟨rfl, rfl, rfl, rfl, rfl, rfl, ?_⟩
  show (afterFirstLine.buf.set 0 0)[(0 : Nat)]? = some 0
  exact List.getElem?_set_self (by omega)

/-- C4.  The claim says an empty scratch history slot is appended on every
`Linenoise` invocation, so history browsing never overwrites a real
stored entry.  In the code the scratch slot is appended only once, in
`LinenoiseCreate`; ENTER frees it, and nothing re-appends it.  On the
second invocation (after the host stored "hi" and "two") the newest slot
is the real entry "two", not an empty scratch, and pressing UP frees and
overwrites it: "two" is gone from the history afterwards. -/
theorem claim_C4_second_invocation_overwrites_history :
    secondEntryState.history.getLast? = some [116, 119, 111] ∧
      secondEntryState.history.getLast? ≠ some [] ∧
      afterUpSecond.history = [[104, 105], []] ∧
      [116, 119, 111] ∉ afterUpSecond.history := by
  have hist2 : secondEntryState.history = [[104, 105], [116, 119, 111]] := rfl
  have hcstr : cstr secondEntryState.buf = [] := cstr_set_zero _
  have hup : afterUpSecond.history = [[104, 105], []] := by
    show (LinenoiseEditHistoryNext secondEntryState true).history = _
    unfold LinenoiseEditHistoryNext
    rw [hist2, hcstr, show secondEntryState.history_index = 0 from rfl]
    decide
  refine ⟨by rw [hist2]; decide, by rw [hist2]; decide, hup, by rw [hup]; decide⟩

/-- C5.  Over every sequence of `LinenoiseHistoryAdd` /
`LinenoiseHistorySetMaxLen` calls from a fresh session: the history length
never exceeds `history_max_len`; adding a line equal to the current last
entry returns 0 and changes nothing; and whenever an add changes the
history, the new newest entry is the added line and differs from the
previous newest entry. -/
theorem claim_C5_history_invariant (plen cols : Nat) (ops : List HistOp) :
    (ops.foldl applyHistOp (LinenoiseCreate plen cols)).history.length ≤
        (ops.foldl applyHistOp (LinenoiseCreate plen cols)).history_max_len ∧
      (∀ line : List Nat,
        (ops.foldl applyHistOp (LinenoiseCreate plen cols)).history.getLast? =
            some line →
          LinenoiseHistoryAdd (ops.foldl applyHistOp (LinenoiseCreate plen cols))
              line =
            (0, ops.foldl applyHistOp (LinenoiseCreate plen cols))) ∧
      (∀ line : List Nat,
        (LinenoiseHistoryAdd (ops.foldl applyHistOp (LinenoiseCreate plen cols))
              line).2.history ≠
            (ops.foldl applyHistOp (LinenoiseCreate plen cols)).history →
          (LinenoiseHistoryAdd (ops.foldl applyHistOp (LinenoiseCreate plen cols))
                line).2.history.getLast? =
              some line ∧
            (ops.foldl applyHistOp (LinenoiseCreate plen cols)).history.getLast? ≠
              some line) := by
  refine ⟨?_, ?_, ?_⟩
  · apply histLe_foldl
    show (LinenoiseCreate plen cols).history.length ≤
      (LinenoiseCreate plen cols).history_max_len
    show ([[]] : List (List Nat)).length ≤ 100
    decide
  · intro line h
    exact historyAdd_dedup _ line h
  · intro line h
    exact historyAdd_changes _ line h

/-- C5, witness: on the fresh session (history `[""]`), adding "a" changes
the history; the new newest entry is "a" and the old newest was not. -/
theorem claim_C5_history_invariant_witness :
    (LinenoiseHistoryAdd (LinenoiseCreate 2 80) [97]).2.history.getLast? =
        some [97] ∧
      (LinenoiseCreate 2 80).history.getLast? ≠ some [97] :=
  (claim_C5_history_invariant 2 80 []).2.2 [97] (by decide)

/-- C6 (amended).  Saving a history whose entries contain no 0, LF or CR
byte and fit one `fgets` read (`length + 1 ≤ 4095`), **and in which no two
adjacent entries are equal**, then loading the file into an editor with
empty history and `history_max_len` at least the saved length, reproduces
the history bytewise.  The extra adjacency condition is forced by the
loader's use of `LinenoiseHistoryAdd` (duplicate suppression), and the
no-CR condition by its truncation at the *first* CR (see the
counterexample). -/
theorem claim_C6_save_load_roundtrip (h : List (List Nat))
    (ssave s : LinenoiseState)
    (hsave : ssave.history = h)
    (hclean : ∀ e ∈ h, ∀ x ∈ e, x ≠ 0 ∧ x ≠ 10 ∧ x ≠ 13)
    (hfit : ∀ e ∈ h, e.length + 1 ≤ 4095)
    (hadj : h.Chain' (fun a b => a ≠ b))
    (hempty : s.history = [])
    (hmax : h.length ≤ s.history_max_len) :
    (LinenoiseHistoryLoad s (LinenoiseHistorySave ssave)).history = h := by
  subst hsave
  unfold LinenoiseHistorySave LinenoiseHistoryLoad
  rw [loadLoop_save ssave.history _ s hclean hfit hadj
    (fun e0 h0 => by rw [hempty]; simp)
    (by rw [hempty]; simpa using hmax)
    (le_refl _)]
  rw [hempty]
  simp

/-- C6, witness: the two-entry history `["a", "b"]` survives a save/load
round trip into an empty editor. -/
theorem claim_C6_save_load_roundtrip_witness :
    (LinenoiseHistoryLoad emptyHistState
        (LinenoiseHistorySave
          { emptyHistState with history := [[97], [98]] })).history =
      [[97], [98]] :=
  claim_C6_save_load_roundtrip [[97], [98]]
    { emptyHistState with history := [[97], [98]] } emptyHistState rfl
    (by decide) (by decide) (by simp) rfl (by decide)

/-- C6, counterexample to the claim as stated: the history `["a", "a"]`
(no newlines, within the length limit) loads back as `["a"]` because the
loader's `LinenoiseHistoryAdd` suppresses the adjacent duplicate; and
`["a\r b"]`-style entries with an interior CR come back truncated at the
first CR (`"a\rb"` loads as `"a"`), not merely stripped of a trailing CR. -/
theorem claim_C6_counterexample :
    (LinenoiseHistoryLoad emptyHistState
        (LinenoiseHistorySave
          { emptyHistState with history := [[97], [97]] })).history ≠
        [[97], [97]] ∧
      (LinenoiseHistoryLoad emptyHistState
          (LinenoiseHistorySave
            { emptyHistState with history := [[97, 13, 98]] })).history ≠
        [[97, 13, 98]] := by
  decide

/-- C7 (amended).  In **both** single-line and multi-line mode the hint is
rendered only when `plen + len < cols` (the multi-line refresh calls the
same `RefreshShowHints` with the same guard, so rendering is not
unconditional there), and a rendered hint is truncated so that
`plen + len + hintlen ≤ cols`. -/
theorem claim_C7_hint_guard (mlmode hasCb : Bool) (hint : Option (List Nat))
    (plen len cols : Nat) :
    ((RefreshLineHint mlmode hasCb hint plen len cols).isSome →
        plen + len < cols) ∧
      (∀ t, RefreshLineHint mlmode hasCb hint plen len cols = some t →
        plen + len + t.length ≤ cols) ∧
      RefreshLineHint mlmode hasCb hint plen len cols =
        RefreshShowHints hasCb hint plen len cols := by
  have hsame : RefreshLineHint mlmode hasCb hint plen len cols =
      RefreshShowHints hasCb hint plen len cols := by
    unfold RefreshLineHint RefreshMultiLineHint RefreshSingleLineHint
    split <;> rfl
  refine ⟨?_, ?_, hsame⟩
  · rw [hsame]
    unfold RefreshShowHints
    split
    · rename_i hcond
      intro _
      exact hcond.2
    · intro hiss
      simp at hiss
  · intro t ht
    rw [hsame] at ht
    unfold RefreshShowHints at ht
    split at ht
    · rename_i hcond
      cases hint with
      | none => simp at ht
      | some hh =>
          dsimp only at ht
          rw [Option.some_inj] at ht
          subst ht
          split
          · simp only [List.length_take]
            omega
          · rename_i hle
            have := hcond.2
            omega
    · simp at ht

/-- C7, witness: single-line mode, prompt 2, line 3, 10 columns, a
10-byte hint: the guard `2 + 3 < 10` holds and the rendered hint is
truncated to 5 bytes so the total equals the width. -/
theorem claim_C7_hint_guard_witness :
    2 + 3 < 10 ∧ 2 + 3 + ([1, 2, 3, 4, 5] : List Nat).length ≤ 10 :=
  ⟨(claim_C7_hint_guard false true (some [1, 2, 3, 4, 5, 6, 7, 8, 9, 10]) 2 3 10).1
      (by decide),
    (claim_C7_hint_guard false true (some [1, 2, 3, 4, 5, 6, 7, 8, 9, 10]) 2 3 10).2.1
      [1, 2, 3, 4, 5] (by decide)⟩

/-- C7, counterexample to the claim as stated: in multi-line mode with
`plen = 5`, `len = 5`, `cols = 10` and a hints callback returning a hint,
nothing is rendered — rendering is not unconditional in multi-line mode,
because `RefreshMultiLine` calls the same guarded `RefreshShowHints`. -/
theorem claim_C7_counterexample :
    RefreshLineHint true true (some [87]) 5 5 10 = none := by
  decide

/-- C8 (amended).  For every state with `pos ≤ len` and **`plen < cols`**,
the single-line window computation succeeds (no `size_t` underflow) and
the resulting window satisfies `plen + pos < cols` and
`plen + len ≤ cols`.  The claim's "for all values of plen and cols ≥ 1"
is false: with `plen ≥ cols` the first loop decrements `pos` past zero
(see the counterexample), as §9 of the specification itself warns. -/
theorem claim_C8_window_in_frame (plen pos len cols : Nat)
    (hpl : pos ≤ len) (hcols : plen < cols) :
    (RefreshSingleLineWindow plen pos len cols).isSome ∧
      ∀ skip p2 l2,
        RefreshSingleLineWindow plen pos len cols = some (skip, p2, l2) →
          plen + p2 < cols ∧ plen + l2 ≤ cols := by
  obtain ⟨p2, l2, sk, hslide, hp2, hpl2⟩ := slideLoop_ok plen cols hcols pos len 0 hpl
  obtain ⟨l3, htrunc, hl3⟩ := truncLoop_ok plen cols hcols l2
  have hres : RefreshSingleLineWindow plen pos len cols = some (sk, p2, l3) := by
    unfold RefreshSingleLineWindow
    rw [hslide]
    dsimp only
    rw [htrunc]
  constructor
  · rw [hres]
    rfl
  · intro skip p2' l2' hsome
    rw [hres] at hsome
    simp only [Option.some.injEq, Prod.mk.injEq] at hsome
    obtain ⟨h1, h2, h3⟩ := hsome
    subst h2
    subst h3
    exact ⟨hp2, hl3⟩

/-- C8, witness: prompt 2, cursor 5, line 9, 10 columns: the window is
`some (skip 0, pos 5, len 8)` with `2 + 5 < 10` and `2 + 8 ≤ 10`. -/
theorem claim_C8_window_in_frame_witness :
    (RefreshSingleLineWindow 2 5 9 10).isSome ∧ (2 + 5 < 10 ∧ 2 + 8 ≤ 10) :=
  ⟨(claim_C8_window_in_frame 2 5 9 10 (by decide) (by decide)).1,
    (claim_C8_window_in_frame 2 5 9 10 (by decide) (by decide)).2 0 5 8 (by decide)⟩

/-- C8, counterexample to the claim as stated: `plen = 1`, `cols = 1`
(`cols ≥ 1`), `pos = len = 0`: the first loop's condition
`plen + pos ≥ cols` holds at `pos = 0`, so `pos--` underflows the
`size_t` arithmetic (modelled as `none`). -/
theorem claim_C8_counterexample : RefreshSingleLineWindow 1 0 0 1 = none := by
  decide

/-- C9.  The dispatcher invokes CTRL-W's handler with no `pos > 0`
precondition; when `pos = 0` both retreat loops stay at 0, the `memmove`
copies `len + 1` bytes onto themselves, and `len -= 0`, so the dispatch
step returns the state completely unchanged (and does not exit the
loop). -/
theorem claim_C9_ctrlW_at_pos_zero_noop (hcb : Bool) (s : LinenoiseState)
    (h : s.pos = 0) : LinenoiseEditStep hcb s Key.ctrlW = (s, false) := by
  obtain ⟨buf, buflen, plen, pos, oldpos, len, cols, maxrows, hidx, raw, ml, hml,
    hist⟩ := s
  have h2 : pos = 0 := h
  subst h2
  simp only [LinenoiseEditStep]
  unfold LinenoiseEditDeletePrevWord
  dsimp only
  have hmm : ∀ n, memmoveList buf 0 0 n = buf := by
    intro n
    unfold memmoveList
    simp
  simp [skipSpaces, skipWord, hmm]

/-- C9, witness: on the fresh session (whose cursor is at 0) the CTRL-W
dispatch step is the identity. -/
theorem claim_C9_ctrlW_at_pos_zero_noop_witness :
    LinenoiseEditStep false (initEditState 2 80) Key.ctrlW =
      (initEditState 2 80, false) :=
  claim_C9_ctrlW_at_pos_zero_noop false (initEditState 2 80) rfl

/-- C10.  Inserting into a full buffer (`len ≥ buflen`) returns 0 with the
state unchanged, and the only way `LinenoiseEditInsert` reports failure is
a terminal-write error on the append fast path (cursor at end, single-line
mode, prompt plus line shorter than the width, no hints callback). -/
theorem claim_C10_insert_at_capacity (hcb writeOk : Bool) (s : LinenoiseState)
    (c : Nat) :
    (s.buflen ≤ s.len → LinenoiseEditInsert hcb writeOk s c = (0, s)) ∧
      ((LinenoiseEditInsert hcb writeOk s c).1 ≠ 0 →
        writeOk = false ∧ s.len < s.buflen ∧ s.pos = s.len ∧ s.mlmode = false ∧
          hcb = false ∧ s.plen + (s.len + 1) < s.cols) := by
  constructor
  · intro hcap
    unfold LinenoiseEditInsert
    rw [if_neg (by omega)]
  · intro hret
    unfold LinenoiseEditInsert at hret
    dsimp only at hret
    by_cases h1 : s.len < s.buflen
    · rw [if_pos h1] at hret
      by_cases h2 : s.len = s.pos
      · rw [if_pos h2] at hret
        split at hret
        · rename_i hcond
          split at hret
          · simp at hret
          · rename_i hw
            refine ⟨by simpa using hw, h1, h2.symm, ?_, ?_, ?_⟩
            · simpa using hcond.1
            · simpa using hcond.2.2
            · exact hcond.2.1
        · simp at hret
      · rw [if_neg h2] at hret
        simp at hret
    · rw [if_neg h1] at hret
      simp at hret

/-- C10, witness: inserting into the full session leaves `(0, state)`
untouched for a succeeding write, and the only failing insert in sight is
a failing fast-path write on the fresh session. -/
theorem claim_C10_insert_at_capacity_witness :
    LinenoiseEditInsert false true fullBufState 97 = (0, fullBufState) ∧
      ((LinenoiseEditInsert false false (initEditState 2 80) 97).1 ≠ 0 →
        (false : Bool) = false ∧ (initEditState 2 80).len < (initEditState 2 80).buflen ∧
          (initEditState 2 80).pos = (initEditState 2 80).len ∧
          (initEditState 2 80).mlmode = false ∧ (false : Bool) = false ∧
          (initEditState 2 80).plen + ((initEditState 2 80).len + 1) <
            (initEditState 2 80).cols) :=
  ⟨(claim_C10_insert_at_capacity false true fullBufState 97).1 (by decide),
    (claim_C10_insert_at_capacity false false (initEditState 2 80) 97).2⟩

end Linenoise
